import Mathlib

/-!
Verification of the wallet risk-scoring core (`calculate_risk_score`,
src/main.py lines 253-287) of the ethereum_wallet_scoring repository.

The core consumes one feature record per wallet, min-max normalizes each
of the seven feature columns across the batch (sklearn `MinMaxScaler`,
which maps a zero-range column to all zeros), forms a fixed weighted sum
per record, rescales the batch of raw scores so that the minimum maps to
100 and the maximum to 1000 (or assigns 500 to everyone when all raw
scores coincide), clips to [0, 1000] with `np.clip`, and truncates to an
integer with `astype(int)`.

Numeric values are modelled as rationals; the pandas DataFrame passed to
`calculate_risk_score` is modelled as a list of records (plus, for the
frame-effect claim, an explicit structure carrying the optional `score`
column that line 286 assigns in place).
-/

namespace WalletScoring

/-- The core's error outcome: the batch cannot be scored. In the source an
empty batch makes `MinMaxScaler.fit_transform` raise on a zero-sample
input, aborting the call with no output. -/
inductive ScoreError where
  | invalidInput
deriving DecidableEq

/-- One feature record per wallet, as built by `extract_features`
(src/main.py lines 187-251) and consumed by the core: the `wallet_id`
plus the seven numeric feature columns. -/
structure FeatureRecord where
  wallet_id : String
  borrow_count : ℚ
  repayment_ratio : ℚ
  collateral_ratio : ℚ
  liquidation_count : ℚ
  total_volume : ℚ
  activity_level : ℚ
  no_compound_activity : ℚ
deriving DecidableEq

/-- One output record per wallet: the preserved `wallet_id` and the final
integer score (src/main.py line 287). -/
structure ScoreRecord where
  wallet_id : String
  score : ℤ
deriving DecidableEq

/-- The seven feature columns of the `feature_columns` list
(src/main.py line 256). -/
inductive Col where
  | borrow_count
  | repayment_ratio
  | collateral_ratio
  | liquidation_count
  | total_volume
  | activity_level
  | no_compound_activity
deriving DecidableEq

/-- Column projection of a record: `features_df[c]` for row `r`. -/
def colVal : Col → FeatureRecord → ℚ
  | Col.borrow_count, r => r.borrow_count
  | Col.repayment_ratio, r => FeatureRecord.repayment_ratio r
  | Col.collateral_ratio, r => FeatureRecord.collateral_ratio r
  | Col.liquidation_count, r => r.liquidation_count
  | Col.total_volume, r => r.total_volume
  | Col.activity_level, r => r.activity_level
  | Col.no_compound_activity, r => r.no_compound_activity

/-- The fixed signed weights of the `weights` dict
(src/main.py lines 264-272). -/
def weight : Col → ℚ
  | Col.borrow_count => -2/10
  | Col.repayment_ratio => 3/10
  | Col.collateral_ratio => 3/10
  | Col.liquidation_count => -25/100
  | Col.total_volume => 2/10
  | Col.activity_level => 25/100
  | Col.no_compound_activity => -1/10

/-- The `feature_columns` list (src/main.py line 256), in source order. -/
def feature_columns : List Col :=
  [Col.borrow_count, Col.repayment_ratio, Col.collateral_ratio,
   Col.liquidation_count, Col.total_volume, Col.activity_level,
   Col.no_compound_activity]

/-- Minimum of a list of rationals, as `numpy.min` / the scaler's per-column
minimum computes it on a nonempty array (the `[]` case is never reached by
the core, which rejects empty batches). -/
def listMin : List ℚ → ℚ
  | [] => 0
  | x :: xs => xs.foldl min x

/-- Maximum of a list of rationals, as `numpy.max` / the scaler's per-column
maximum computes it on a nonempty array. -/
def listMax : List ℚ → ℚ
  | [] => 0
  | x :: xs => xs.foldl max x

/-- Per-column minimum over the batch, computed by `MinMaxScaler.fit`
(src/main.py lines 259-260). -/
def colMin (l : List FeatureRecord) (c : Col) : ℚ := listMin (l.map (colVal c))

/-- Per-column maximum over the batch, computed by `MinMaxScaler.fit`
(src/main.py lines 259-260). -/
def colMax (l : List FeatureRecord) (c : Col) : ℚ := listMax (l.map (colVal c))

/-- `MinMaxScaler`'s transform of one value, given the fitted column min and
max: `(v - mn) / (mx - mn)`, where sklearn's `_handle_zeros_in_scale`
replaces a zero range by 1 (so a zero-variance column maps to all zeros,
never dividing by zero). -/
def normVal (mn mx v : ℚ) : ℚ := (v - mn) / (if mx = mn then 1 else mx - mn)

/-- Normalized value of column `c` of record `r`, relative to batch `l`:
entry of `normalized_df` (src/main.py lines 259-261). -/
def normalized (l : List FeatureRecord) (c : Col) (r : FeatureRecord) : ℚ :=
  normVal (colMin l c) (colMax l c) (colVal c r)

/-- Raw weighted score of record `r` in batch `l`: the accumulation loop
`scores += normalized_df[feature] * weight` (src/main.py lines 275-277). -/
def rawScore (l : List FeatureRecord) (r : FeatureRecord) : ℚ :=
  (feature_columns.map (fun c => normalized l c r * weight c)).sum

/-- `scores.min()` over the batch (src/main.py line 280). -/
def rawMin (l : List FeatureRecord) : ℚ := listMin (l.map (rawScore l))

/-- `scores.max()` over the batch (src/main.py line 280). -/
def rawMax (l : List FeatureRecord) : ℚ := listMax (l.map (rawScore l))

/-- `np.clip(x, 0, 1000)` (src/main.py line 285): `min(max(x, 0), 1000)`. -/
def clip (x : ℚ) : ℚ := min (max x 0) 1000

/-- `astype(int)` (src/main.py line 286): C truncation toward zero. -/
def truncInt (q : ℚ) : ℤ := if 0 ≤ q then ⌊q⌋ else ⌈q⌉

/-- The rescaled (pre-clip, pre-truncation) score of record `r` in batch
`l` (src/main.py lines 280-284): 500 for everyone when all raw scores
coincide, otherwise the linear map sending `rawMin` to 100 and `rawMax`
to 1000. -/
def finalScoreQ (l : List FeatureRecord) (r : FeatureRecord) : ℚ :=
  if rawMax l = rawMin l then 500
  else (rawScore l r - rawMin l) / (rawMax l - rawMin l) * 900 + 100

/-- The finished output row for record `r` of batch `l`: the preserved
`wallet_id` with the clipped, truncated score (src/main.py lines 285-287). -/
def scoreOne (l : List FeatureRecord) (r : FeatureRecord) : ScoreRecord :=
  { wallet_id := r.wallet_id, score := truncInt (clip (finalScoreQ l r)) }

/-- The core `calculate_risk_score` (src/main.py lines 253-287) at its
function-call boundary: an empty batch aborts (sklearn raises on zero
samples); a nonempty batch yields one ScoreRecord per input record, in
input row order. -/
def calculate_risk_score :
    List FeatureRecord → Except ScoreError (List ScoreRecord)
  | [] => Except.error ScoreError.invalidInput
  | x :: xs => Except.ok ((x :: xs).map (scoreOne (x :: xs)))

/-- The state of the `features_df` DataFrame passed to the core: its
feature rows and its `score` column, which is absent on entry and is
assigned in place by `features_df["score"] = scores.astype(int)`
(src/main.py line 286). -/
structure FeaturesDF where
  rows : List FeatureRecord
  score_col : Option (List ℤ)
deriving DecidableEq

/-- The core with the caller's DataFrame state made explicit: the result
pairs the post-call state of the input `features_df` with the returned
frame's rows. Line 286 mutates the argument by adding the `score` column;
the feature rows themselves are left untouched. -/
def calculate_risk_score_df (df : FeaturesDF) :
    Except ScoreError (FeaturesDF × List ScoreRecord) :=
  match df.rows with
  | [] => Except.error ScoreError.invalidInput
  | x :: xs =>
      let out := (x :: xs).map (scoreOne (x :: xs))
      Except.ok ({ rows := x :: xs, score_col := some (out.map ScoreRecord.score) }, out)

/-! ### Helper lemmas about `listMin` and `listMax` -/

theorem foldl_min_le_init (xs : List ℚ) (a : ℚ) : xs.foldl min a ≤ a := by
  induction xs generalizing a with
  | nil => exact le_refl a
  | cons x xs ih =>
      calc (x :: xs).foldl min a = xs.foldl min (min a x) := rfl
        _ ≤ min a x := ih (min a x)
        _ ≤ a := min_le_left a x

theorem foldl_min_le_mem (xs : List ℚ) (a x : ℚ) (hx : x ∈ xs) :
    xs.foldl min a ≤ x := by
  induction xs generalizing a with
  | nil => cases hx
  | cons y ys ih =>
      rcases List.mem_cons.1 hx with h | h
      · subst h
        calc ys.foldl min (min a x) ≤ min a x := foldl_min_le_init ys (min a x)
          _ ≤ x := min_le_right a x
      · exact ih (min a y) h

theorem foldl_min_mem (xs : List ℚ) (a : ℚ) :
    xs.foldl min a = a ∨ xs.foldl min a ∈ xs := by
  induction xs generalizing a with
  | nil => exact Or.inl rfl
  | cons y ys ih =>
      rcases ih (min a y) with h | h
      · rcases min_choice a y with hm | hm
        · exact Or.inl (by rw [List.foldl_cons, h, hm])
        · exact Or.inr (by rw [List.foldl_cons, h, hm]; exact List.mem_cons_self y ys)
      · exact Or.inr (List.mem_cons_of_mem y h)

theorem init_le_foldl_max (xs : List ℚ) (a : ℚ) : a ≤ xs.foldl max a := by
  induction xs generalizing a with
  | nil => exact le_refl a
  | cons x xs ih =>
      calc a ≤ max a x := le_max_left a x
        _ ≤ xs.foldl max (max a x) := ih (max a x)
        _ = (x :: xs).foldl max a := rfl

theorem mem_le_foldl_max (xs : List ℚ) (a x : ℚ) (hx : x ∈ xs) :
    x ≤ xs.foldl max a := by
  induction xs generalizing a with
  | nil => cases hx
  | cons y ys ih =>
      rcases List.mem_cons.1 hx with h | h
      · subst h
        calc x ≤ max a x := le_max_right a x
          _ ≤ ys.foldl max (max a x) := init_le_foldl_max ys (max a x)
      · exact ih (max a y) h

theorem foldl_max_mem (xs : List ℚ) (a : ℚ) :
    xs.foldl max a = a ∨ xs.foldl max a ∈ xs := by
  induction xs generalizing a with
  | nil => exact Or.inl rfl
  | cons y ys ih =>
      rcases ih (max a y) with h | h
      · rcases max_choice a y with hm | hm
        · exact Or.inl (by rw [List.foldl_cons, h, hm])
        · exact Or.inr (by rw [List.foldl_cons, h, hm]; exact List.mem_cons_self y ys)
      · exact Or.inr (List.mem_cons_of_mem y h)

theorem listMin_le_of_mem {l : List ℚ} {x : ℚ} (hx : x ∈ l) : listMin l ≤ x := by
  cases l with
  | nil => cases hx
  | cons y ys =>
      rcases List.mem_cons.1 hx with h | h
      · subst h; exact foldl_min_le_init ys x
      · exact foldl_min_le_mem ys y x h

theorem le_listMax_of_mem {l : List ℚ} {x : ℚ} (hx : x ∈ l) : x ≤ listMax l := by
  cases l with
  | nil => cases hx
  | cons y ys =>
      rcases List.mem_cons.1 hx with h | h
      · subst h; exact init_le_foldl_max ys x
      · exact mem_le_foldl_max ys y x h

theorem listMin_mem {l : List ℚ} (hl : l ≠ []) : listMin l ∈ l := by
  cases l with
  | nil => exact absurd rfl hl
  | cons y ys =>
      rcases foldl_min_mem ys y with h | h
      · rw [listMin, h]; exact List.mem_cons_self y ys
      · exact List.mem_cons_of_mem y h

theorem listMax_mem {l : List ℚ} (hl : l ≠ []) : listMax l ∈ l := by
  cases l with
  | nil => exact absurd rfl hl
  | cons y ys =>
      rcases foldl_max_mem ys y with h | h
      · rw [listMax, h]; exact List.mem_cons_self y ys
      · exact List.mem_cons_of_mem y h

theorem listMin_le_listMax {l : List ℚ} (hl : l ≠ []) : listMin l ≤ listMax l := by
  cases l with
  | nil => exact absurd rfl hl
  | cons y ys =>
      exact le_trans (listMin_le_of_mem (List.mem_cons_self y ys))
        (le_listMax_of_mem (List.mem_cons_self y ys))

theorem listMin_perm {l₁ l₂ : List ℚ} (h : l₁.Perm l₂) : listMin l₁ = listMin l₂ := by
  cases l₁ with
  | nil => rw [h.nil_eq.symm]
  | cons y ys =>
      have h₂ : l₂ ≠ [] := by
        intro hn; rw [hn] at h; exact List.cons_ne_nil y ys h.eq_nil
      have hne : (y :: ys) ≠ [] := List.cons_ne_nil y ys
      exact le_antisymm
        (listMin_le_of_mem (h.mem_iff.2 (listMin_mem h₂)))
        (listMin_le_of_mem (h.mem_iff.1 (listMin_mem hne)))

theorem listMax_perm {l₁ l₂ : List ℚ} (h : l₁.Perm l₂) : listMax l₁ = listMax l₂ := by
  cases l₁ with
  | nil => rw [h.nil_eq.symm]
  | cons y ys =>
      have h₂ : l₂ ≠ [] := by
        intro hn; rw [hn] at h; exact List.cons_ne_nil y ys h.eq_nil
      have hne : (y :: ys) ≠ [] := List.cons_ne_nil y ys
      exact le_antisymm
        (le_listMax_of_mem (h.mem_iff.1 (listMax_mem hne)))
        (le_listMax_of_mem (h.mem_iff.2 (listMax_mem h₂)))

theorem listMin_const {l : List ℚ} {k : ℚ} (hl : l ≠ []) (hk : ∀ x ∈ l, x = k) :
    listMin l = k :=
  hk _ (listMin_mem hl)

theorem listMax_const {l : List ℚ} {k : ℚ} (hl : l ≠ []) (hk : ∀ x ∈ l, x = k) :
    listMax l = k :=
  hk _ (listMax_mem hl)

/-! ### Lemmas about the normalization and scoring pipeline -/

theorem colMin_le_colVal {l : List FeatureRecord} {r : FeatureRecord}
    (hr : r ∈ l) (c : Col) : colMin l c ≤ colVal c r :=
  listMin_le_of_mem (List.mem_map_of_mem (colVal c) hr)

theorem colVal_le_colMax {l : List FeatureRecord} {r : FeatureRecord}
    (hr : r ∈ l) (c : Col) : colVal c r ≤ colMax l c :=
  le_listMax_of_mem (List.mem_map_of_mem (colVal c) hr)

theorem colMin_le_colMax {l : List FeatureRecord} (hl : l ≠ []) (c : Col) :
    colMin l c ≤ colMax l c :=
  listMin_le_listMax (by simpa using hl)

theorem normVal_den_pos {mn mx : ℚ} (h : mn ≤ mx) :
    0 < (if mx = mn then 1 else mx - mn) := by
  by_cases hc : mx = mn
  · rw [if_pos hc]; exact one_pos
  · rw [if_neg hc]
    exact sub_pos.2 (lt_of_le_of_ne h (fun he => hc he.symm))

theorem normalized_mono {l : List FeatureRecord} {c : Col}
    {r₁ r₂ : FeatureRecord} (hl : l ≠ [])
    (h : colVal c r₁ ≤ colVal c r₂) :
    normalized l c r₁ ≤ normalized l c r₂ := by
  unfold normalized normVal
  exact (div_le_div_iff_of_pos_right
    (normVal_den_pos (colMin_le_colMax hl c))).2 (by linarith)

theorem normalized_congr {l : List FeatureRecord} {c : Col}
    {r₁ r₂ : FeatureRecord} (h : colVal c r₁ = colVal c r₂) :
    normalized l c r₁ = normalized l c r₂ := by
  unfold normalized normVal
  rw [h]

theorem normalized_zero_of_const {l : List FeatureRecord} {c : Col}
    {r : FeatureRecord} (hc : colMax l c = colMin l c) (hr : r ∈ l) :
    normalized l c r = 0 := by
  have h₁ : colVal c r = colMin l c :=
    le_antisymm (hc ▸ colVal_le_colMax hr c) (colMin_le_colVal hr c)
  unfold normalized normVal
  rw [h₁, sub_self, zero_div]

theorem rawMin_le_rawScore {l : List FeatureRecord} {r : FeatureRecord}
    (hr : r ∈ l) : rawMin l ≤ rawScore l r :=
  listMin_le_of_mem (List.mem_map_of_mem (rawScore l) hr)

theorem rawScore_le_rawMax {l : List FeatureRecord} {r : FeatureRecord}
    (hr : r ∈ l) : rawScore l r ≤ rawMax l :=
  le_listMax_of_mem (List.mem_map_of_mem (rawScore l) hr)

theorem rawMin_le_rawMax {l : List FeatureRecord} (hl : l ≠ []) :
    rawMin l ≤ rawMax l :=
  listMin_le_listMax (by simpa using hl)

theorem finalScoreQ_bounds {l : List FeatureRecord} {r : FeatureRecord}
    (hl : l ≠ []) (hne : rawMax l ≠ rawMin l) (hr : r ∈ l) :
    100 ≤ finalScoreQ l r ∧ finalScoreQ l r ≤ 1000 := by
  have hlt : rawMin l < rawMax l :=
    lt_of_le_of_ne (rawMin_le_rawMax hl) (fun he => hne he.symm)
  have hden : (0:ℚ) < rawMax l - rawMin l := sub_pos.2 hlt
  have h₁ : (0:ℚ) ≤ (rawScore l r - rawMin l) / (rawMax l - rawMin l) :=
    div_nonneg (by linarith [rawMin_le_rawScore hr]) (le_of_lt hden)
  have h₂ : (rawScore l r - rawMin l) / (rawMax l - rawMin l) ≤ 1 :=
    (div_le_one hden).2 (by linarith [rawScore_le_rawMax hr])
  unfold finalScoreQ
  rw [if_neg hne]
  constructor <;> nlinarith

theorem clip_eq_self {x : ℚ} (h0 : 0 ≤ x) (h1 : x ≤ 1000) : clip x = x := by
  unfold clip
  rw [max_eq_left h0, min_eq_left h1]

theorem truncInt_eq_floor {q : ℚ} (h : 0 ≤ q) : truncInt q = ⌊q⌋ := by
  unfold truncInt
  rw [if_pos h]

theorem truncInt_mono {a b : ℚ} (h : a ≤ b) : truncInt a ≤ truncInt b := by
  unfold truncInt
  by_cases ha : 0 ≤ a
  · rw [if_pos ha, if_pos (le_trans ha h)]
    exact Int.floor_le_floor h
  · rw [if_neg ha]
    by_cases hb : 0 ≤ b
    · rw [if_pos hb]
      have h₁ : ⌈a⌉ ≤ 0 := Int.ceil_le.2 (by exact_mod_cast le_of_not_le ha)
      have h₂ : 0 ≤ ⌊b⌋ := Int.floor_nonneg.2 hb
      exact le_trans h₁ h₂
    · rw [if_neg hb]
      exact Int.ceil_le_ceil h

theorem calculate_risk_score_cons (x : FeatureRecord) (xs : List FeatureRecord) :
    calculate_risk_score (x :: xs) =
      Except.ok ((x :: xs).map (scoreOne (x :: xs))) := rfl

theorem clip_mono {a b : ℚ} (h : a ≤ b) : clip a ≤ clip b := by
  unfold clip
  exact min_le_min (max_le_max h (le_refl 0)) (le_refl 1000)

theorem score_range (l : List FeatureRecord) (r : FeatureRecord) :
    0 ≤ (scoreOne l r).score ∧ (scoreOne l r).score ≤ 1000 := by
  have h0 : (0:ℚ) ≤ clip (finalScoreQ l r) :=
    le_min (le_max_right (finalScoreQ l r) 0) (by norm_num)
  have h1 : clip (finalScoreQ l r) ≤ 1000 :=
    min_le_right (max (finalScoreQ l r) 0) 1000
  unfold scoreOne
  rw [truncInt_eq_floor h0]
  refine ⟨Int.floor_nonneg.2 h0, ?_⟩
  have := Int.floor_le_floor (α := ℚ) h1
  simpa using this

/-! ### Sample records used to instantiate hypotheses of the claims -/

/-- A wallet record with every feature equal to zero. -/
def sampleA : FeatureRecord := ⟨"w1", 0, 0, 0, 0, 0, 0, 0⟩

/-- A wallet record agreeing with `sampleA` on every feature except
`liquidation_count`, which is 1. -/
def sampleB : FeatureRecord := ⟨"w2", 0, 0, 0, 1, 0, 0, 0⟩

/-- A wallet record with the same seven feature values as `sampleA` but a
distinct `wallet_id`. -/
def sampleC : FeatureRecord := ⟨"w3", 0, 0, 0, 0, 0, 0, 0⟩

/-! ### The claims -/

/-- C1: when the raw scores of the batch are not all equal, every wallet's
output score is the linear rescaling `(raw - min_raw) / (max_raw - min_raw)
* 900 + 100` of its raw weighted score, truncated to the nearest lower
integer (floor, no rounding); the defensive clip changes nothing. -/
theorem C1_rescale_formula (l : List FeatureRecord)
    (hne : rawMax l ≠ rawMin l) :
    calculate_risk_score l =
      Except.ok (l.map (fun r =>
        { wallet_id := r.wallet_id,
          score := ⌊(rawScore l r - rawMin l) / (rawMax l - rawMin l) * 900 + 100⌋ })) := by
  have hl : l ≠ [] := by
    intro h
    subst h
    exact hne rfl
  cases l with
  | nil => exact absurd rfl hl
  | cons x xs =>
      rw [calculate_risk_score_cons]
      congr 1
      apply List.map_congr_left
      intro r hr
      have hb := finalScoreQ_bounds (List.cons_ne_nil x xs) hne hr
      unfold scoreOne
      rw [clip_eq_self (by linarith [hb.1]) hb.2,
        truncInt_eq_floor (by linarith [hb.1])]
      unfold finalScoreQ
      rw [if_neg hne]

/-- C1 witness: a concrete two-record batch with distinct raw scores,
scored by the rescaling formula. -/
theorem C1_rescale_formula_witness :
    rawMax [sampleA, sampleB] ≠ rawMin [sampleA, sampleB] ∧
    calculate_risk_score [sampleA, sampleB] =
      Except.ok ([sampleA, sampleB].map (fun r =>
        { wallet_id := r.wallet_id,
          score := ⌊(rawScore [sampleA, sampleB] r - rawMin [sampleA, sampleB]) /
            (rawMax [sampleA, sampleB] - rawMin [sampleA, sampleB]) * 900 + 100⌋ })) := by
  have hne : rawMax [sampleA, sampleB] ≠ rawMin [sampleA, sampleB] := by
    simp [rawMax, rawMin, rawScore, normalized, normVal, colMin, colMax,
      listMin, listMax, feature_columns, weight, colVal, sampleA, sampleB]
    norm_num
  exact ⟨hne, C1_rescale_formula [sampleA, sampleB] hne⟩

/-- C10: when the raw scores are not all equal, every pre-clamp rescaled
score already lies in [100, 1000] (so the clamp to [0, 1000] is the
identity on it), a wallet attaining the minimum raw score gets final score
exactly 100, and a wallet attaining the maximum gets exactly 1000. -/
theorem C10_clamp_never_fires (l : List FeatureRecord)
    (hne : rawMax l ≠ rawMin l) :
    (∀ r ∈ l, 100 ≤ finalScoreQ l r ∧ finalScoreQ l r ≤ 1000 ∧
      clip (finalScoreQ l r) = finalScoreQ l r) ∧
    (∀ r ∈ l, rawScore l r = rawMin l → (scoreOne l r).score = 100) ∧
    (∀ r ∈ l, rawScore l r = rawMax l → (scoreOne l r).score = 1000) := by
  have hl : l ≠ [] := by
    intro h
    subst h
    exact hne rfl
  have hbd : ∀ r ∈ l, 100 ≤ finalScoreQ l r ∧ finalScoreQ l r ≤ 1000 :=
    fun r hr => finalScoreQ_bounds hl hne hr
  refine ⟨fun r hr => ?_, fun r hr hmin => ?_, fun r hr hmax => ?_⟩
  · obtain ⟨h₁, h₂⟩ := hbd r hr
    exact ⟨h₁, h₂, clip_eq_self (by linarith) h₂⟩
  · have hq : finalScoreQ l r = 100 := by
      unfold finalScoreQ
      rw [if_neg hne, hmin, sub_self, zero_div, zero_mul, zero_add]
    unfold scoreOne
    rw [hq, clip_eq_self (by norm_num) (by norm_num),
      truncInt_eq_floor (by norm_num)]
    norm_num
  · have hlt : rawMin l < rawMax l :=
      lt_of_le_of_ne (rawMin_le_rawMax hl) (fun he => hne he.symm)
    have hq : finalScoreQ l r = 1000 := by
      unfold finalScoreQ
      rw [if_neg hne, hmax, div_self (by linarith)]
      norm_num
    unfold scoreOne
    rw [hq, clip_eq_self (by norm_num) (by norm_num),
      truncInt_eq_floor (by norm_num)]
    norm_num

/-- C10 witness: on the concrete batch `[sampleA, sampleB]` the record with
minimal raw score gets 100, the one with maximal raw score gets 1000, and
the clamp is the identity on both pre-clamp values. -/
theorem C10_clamp_never_fires_witness :
    rawMax [sampleA, sampleB] ≠ rawMin [sampleA, sampleB] ∧
    ((∀ r ∈ [sampleA, sampleB],
        100 ≤ finalScoreQ [sampleA, sampleB] r ∧
        finalScoreQ [sampleA, sampleB] r ≤ 1000 ∧
        clip (finalScoreQ [sampleA, sampleB] r) = finalScoreQ [sampleA, sampleB] r) ∧
      (∀ r ∈ [sampleA, sampleB],
        rawScore [sampleA, sampleB] r = rawMin [sampleA, sampleB] →
        (scoreOne [sampleA, sampleB] r).score = 100) ∧
      (∀ r ∈ [sampleA, sampleB],
        rawScore [sampleA, sampleB] r = rawMax [sampleA, sampleB] →
        (scoreOne [sampleA, sampleB] r).score = 1000)) := by
  have hne : rawMax [sampleA, sampleB] ≠ rawMin [sampleA, sampleB] := by
    simp [rawMax, rawMin, rawScore, normalized, normVal, colMin, colMax,
      listMin, listMax, feature_columns, weight, colVal, sampleA, sampleB]
    norm_num
  exact ⟨hne, C10_clamp_never_fires [sampleA, sampleB] hne⟩

/-- C3: the empty batch is rejected with the invalid-input error, and every
nonempty batch — in particular a single record, a batch of all-identical
records, or records with negative feature values — is scored without
failure. -/
theorem C3_empty_rejected (L : List FeatureRecord) (hL : L ≠ []) :
    calculate_risk_score [] = Except.error ScoreError.invalidInput ∧
    ∃ out, calculate_risk_score L = Except.ok out := by
  refine ⟨rfl, ?_⟩
  cases L with
  | nil => exact absurd rfl hL
  | cons x xs => exact ⟨_, rfl⟩

/-- C3 witness: a singleton batch whose record has negative feature values
is scored successfully, while the empty batch errors. -/
theorem C3_empty_rejected_witness :
    ([⟨"w", -5, -1, -1, -2, -3, -4, -1⟩] : List FeatureRecord) ≠ [] ∧
    (calculate_risk_score [] = Except.error ScoreError.invalidInput ∧
      ∃ out, calculate_risk_score [⟨"w", -5, -1, -1, -2, -3, -4, -1⟩] = Except.ok out) :=
  ⟨by simp, C3_empty_rejected [⟨"w", -5, -1, -1, -2, -3, -4, -1⟩] (by simp)⟩

/-- C2 counterexample: a batch holding two records with the same
`wallet_id` "w1" is scored successfully and produces output — the code has
no duplicate-id check, so the claimed InvalidInput failure does not
happen. -/
theorem C2_duplicate_counterexample :
    calculate_risk_score [sampleA, sampleA] =
      Except.ok [{ wallet_id := "w1", score := 500 },
        { wallet_id := "w1", score := 500 }] := by
  simp [calculate_risk_score, scoreOne, finalScoreQ, rawMax, rawMin, rawScore,
    normalized, normVal, colMin, colMax, listMin, listMax, clip, truncInt,
    weight, colVal, feature_columns, sampleA]
  norm_num [min_def]

/-- C2 amended: `calculate_risk_score` performs no duplicate-`wallet_id`
check; every nonempty batch, one with duplicated wallet ids included, is
scored successfully, producing one ScoreRecord per input record. -/
theorem C2_duplicate_scored (l : List FeatureRecord) (hl : l ≠ []) :
    ∃ out, calculate_risk_score l = Except.ok out ∧ out.length = l.length := by
  cases l with
  | nil => exact absurd rfl hl
  | cons x xs => exact ⟨_, rfl, by simp⟩

/-- C2 amended witness: the duplicate-id batch `[sampleA, sampleA]` is
scored, with two output records for two input records. -/
theorem C2_duplicate_scored_witness :
    ([sampleA, sampleA] : List FeatureRecord) ≠ [] ∧
    ∃ out, calculate_risk_score [sampleA, sampleA] = Except.ok out ∧
      out.length = ([sampleA, sampleA] : List FeatureRecord).length :=
  ⟨by simp, C2_duplicate_scored [sampleA, sampleA] (by simp)⟩

/-- C8: every nonempty batch yields exactly one output record per input
record, in input order — so the output `wallet_id`s are exactly the input
`wallet_id`s — and every output score is an integer in [0, 1000]. -/
theorem C8_output_shape (l : List FeatureRecord) (hl : l ≠ []) :
    ∃ out, calculate_risk_score l = Except.ok out ∧
      out.length = l.length ∧
      out.map ScoreRecord.wallet_id = l.map FeatureRecord.wallet_id ∧
      ∀ s ∈ out, 0 ≤ s.score ∧ s.score ≤ 1000 := by
  cases l with
  | nil => exact absurd rfl hl
  | cons x xs =>
      refine ⟨(x :: xs).map (scoreOne (x :: xs)), rfl, by simp, ?_, ?_⟩
      · rw [List.map_map]
        rfl
      · intro s hs
        obtain ⟨r, _, hrs⟩ := List.mem_map.1 hs
        exact hrs ▸ score_range (x :: xs) r

/-- C8 witness: the concrete batch `[sampleA, sampleB]` yields two records
with the input wallet ids and scores inside [0, 1000]. -/
theorem C8_output_shape_witness :
    ([sampleA, sampleB] : List FeatureRecord) ≠ [] ∧
    ∃ out, calculate_risk_score [sampleA, sampleB] = Except.ok out ∧
      out.length = ([sampleA, sampleB] : List FeatureRecord).length ∧
      out.map ScoreRecord.wallet_id = [sampleA, sampleB].map FeatureRecord.wallet_id ∧
      ∀ s ∈ out, 0 ≤ s.score ∧ s.score ≤ 1000 :=
  ⟨by simp, C8_output_shape [sampleA, sampleB] (by simp)⟩

/-- C4: per feature column, independently: a zero-range column (its batch
max equals its batch min, including the N = 1 case) normalizes every one
of its values to exactly 0, by the explicit zero-range branch and not by
any NaN propagation, while a column with distinct values normalizes to
`(v - min) / (max - min)`. -/
theorem C4_minmax_normalization (l : List FeatureRecord) (c : Col)
    (r : FeatureRecord) (hr : r ∈ l) :
    (colMax l c = colMin l c → normalized l c r = 0) ∧
    (colMax l c ≠ colMin l c →
      normalized l c r = (colVal c r - colMin l c) / (colMax l c - colMin l c)) := by
  constructor
  · intro hc
    exact normalized_zero_of_const hc hr
  · intro hc
    unfold normalized normVal
    rw [if_neg hc]

/-- C4 witness: in the batch `[sampleA, sampleB]` the `borrow_count` column
has zero range while the `liquidation_count` column does not; both clauses
are instantiated at record `sampleB`. -/
theorem C4_minmax_normalization_witness :
    sampleB ∈ [sampleA, sampleB] ∧
    ((colMax [sampleA, sampleB] Col.borrow_count =
        colMin [sampleA, sampleB] Col.borrow_count →
      normalized [sampleA, sampleB] Col.borrow_count sampleB = 0) ∧
     (colMax [sampleA, sampleB] Col.borrow_count ≠
        colMin [sampleA, sampleB] Col.borrow_count →
      normalized [sampleA, sampleB] Col.borrow_count sampleB =
        (colVal Col.borrow_count sampleB - colMin [sampleA, sampleB] Col.borrow_count) /
        (colMax [sampleA, sampleB] Col.borrow_count -
          colMin [sampleA, sampleB] Col.borrow_count))) ∧
    ((colMax [sampleA, sampleB] Col.liquidation_count =
        colMin [sampleA, sampleB] Col.liquidation_count →
      normalized [sampleA, sampleB] Col.liquidation_count sampleB = 0) ∧
     (colMax [sampleA, sampleB] Col.liquidation_count ≠
        colMin [sampleA, sampleB] Col.liquidation_count →
      normalized [sampleA, sampleB] Col.liquidation_count sampleB =
        (colVal Col.liquidation_count sampleB -
          colMin [sampleA, sampleB] Col.liquidation_count) /
        (colMax [sampleA, sampleB] Col.liquidation_count -
          colMin [sampleA, sampleB] Col.liquidation_count))) :=
  ⟨by simp,
   C4_minmax_normalization [sampleA, sampleB] Col.borrow_count sampleB (by simp),
   C4_minmax_normalization [sampleA, sampleB] Col.liquidation_count sampleB (by simp)⟩

/-- C5: a batch whose records all carry the same seven feature values — in
particular any single-record batch — gives every wallet the score exactly
500. -/
theorem C5_identical_batch_500 (l : List FeatureRecord) (r₀ : FeatureRecord)
    (hl : l ≠ []) (hid : ∀ r ∈ l, ∀ c, colVal c r = colVal c r₀) :
    calculate_risk_score l =
      Except.ok (l.map (fun r => { wallet_id := r.wallet_id, score := 500 })) := by
  have hcol : ∀ c, colMax l c = colMin l c := by
    intro c
    have hmap : l.map (colVal c) ≠ [] := by simpa using hl
    have hconst : ∀ x ∈ l.map (colVal c), x = colVal c r₀ := by
      intro x hx
      obtain ⟨r, hrr, rfl⟩ := List.mem_map.1 hx
      exact hid r hrr c
    rw [colMax, colMin, listMax_const hmap hconst, listMin_const hmap hconst]
  have hraw : ∀ r ∈ l, rawScore l r = 0 := by
    intro r hr
    have hz : ∀ c, normalized l c r = 0 :=
      fun c => normalized_zero_of_const (hcol c) hr
    simp [rawScore, feature_columns, hz]
  have hrawc : rawMax l = rawMin l := by
    have hmap : l.map (rawScore l) ≠ [] := by simpa using hl
    have hconst : ∀ x ∈ l.map (rawScore l), x = 0 := by
      intro x hx
      obtain ⟨r, hrr, rfl⟩ := List.mem_map.1 hx
      exact hraw r hrr
    rw [rawMax, rawMin, listMax_const hmap hconst, listMin_const hmap hconst]
  cases l with
  | nil => exact absurd rfl hl
  | cons x xs =>
      rw [calculate_risk_score_cons]
      congr 1
      apply List.map_congr_left
      intro r _
      have h500 : finalScoreQ (x :: xs) r = 500 := by
        unfold finalScoreQ
        rw [if_pos hrawc]
      unfold scoreOne
      rw [h500, clip_eq_self (by norm_num) (by norm_num),
        truncInt_eq_floor (by norm_num)]
      norm_num

/-- C5 witness: a single-record batch and a two-record batch of
feature-identical records both score every wallet at 500. -/
theorem C5_identical_batch_500_witness :
    (([sampleA] : List FeatureRecord) ≠ [] ∧
      calculate_risk_score [sampleA] =
        Except.ok ([sampleA].map (fun r => { wallet_id := r.wallet_id, score := 500 }))) ∧
    (([sampleA, sampleC] : List FeatureRecord) ≠ [] ∧
      calculate_risk_score [sampleA, sampleC] =
        Except.ok ([sampleA, sampleC].map
          (fun r => { wallet_id := r.wallet_id, score := 500 }))) :=
  ⟨⟨by simp,
    C5_identical_batch_500 [sampleA] sampleA (by simp)
      (by
        intro r hr c
        rw [List.mem_singleton.1 hr])⟩,
   ⟨by simp,
    C5_identical_batch_500 [sampleA, sampleC] sampleA (by simp)
      (by
        intro r hr c
        rcases List.mem_cons.1 hr with h | h
        · rw [h]
        · rw [List.mem_singleton.1 h]
          cases c <;> rfl)⟩⟩

/-- C7: inside one batch, a wallet identical to another on every feature
except `liquidation_count` but with the larger `liquidation_count` receives
a final score less than or equal to the other wallet's. -/
theorem C7_liquidation_monotone (l : List FeatureRecord)
    (r₁ r₂ : FeatureRecord) (hl : l ≠ []) (h₁ : r₁ ∈ l) (h₂ : r₂ ∈ l)
    (heq : ∀ c, c ≠ Col.liquidation_count → colVal c r₁ = colVal c r₂)
    (hliq : colVal Col.liquidation_count r₁ ≤ colVal Col.liquidation_count r₂) :
    (scoreOne l r₂).score ≤ (scoreOne l r₁).score := by
  have en : ∀ c, c ≠ Col.liquidation_count →
      normalized l c r₁ = normalized l c r₂ :=
    fun c hc => normalized_congr (heq c hc)
  have eliq : normalized l Col.liquidation_count r₁ ≤
      normalized l Col.liquidation_count r₂ :=
    normalized_mono hl hliq
  have hraw : rawScore l r₂ ≤ rawScore l r₁ := by
    have e₁ := en Col.borrow_count (by decide)
    have e₂ := en Col.repayment_ratio (by decide)
    have e₃ := en Col.collateral_ratio (by decide)
    have e₅ := en Col.total_volume (by decide)
    have e₆ := en Col.activity_level (by decide)
    have e₇ := en Col.no_compound_activity (by decide)
    simp only [rawScore, feature_columns, List.map_cons, List.map_nil,
      List.sum_cons, List.sum_nil, weight]
    linarith [e₁, e₂, e₃, e₅, e₆, e₇, eliq]
  show truncInt (clip (finalScoreQ l r₂)) ≤ truncInt (clip (finalScoreQ l r₁))
  refine truncInt_mono (clip_mono ?_)
  by_cases hc : rawMax l = rawMin l
  · unfold finalScoreQ
    rw [if_pos hc, if_pos hc]
  · have hlt : rawMin l < rawMax l :=
      lt_of_le_of_ne (rawMin_le_rawMax hl) (fun he => hc he.symm)
    have hd : (0:ℚ) < rawMax l - rawMin l := by linarith
    unfold finalScoreQ
    rw [if_neg hc, if_neg hc]
    have hdiv : (rawScore l r₂ - rawMin l) / (rawMax l - rawMin l) ≤
        (rawScore l r₁ - rawMin l) / (rawMax l - rawMin l) :=
      (div_le_div_iff_of_pos_right hd).2 (by linarith)
    linarith

/-- C7 witness: in the batch `[sampleA, sampleB]`, where `sampleB` differs
from `sampleA` only by its larger `liquidation_count`, `sampleB` scores no
higher than `sampleA`. -/
theorem C7_liquidation_monotone_witness :
    ([sampleA, sampleB] : List FeatureRecord) ≠ [] ∧
    sampleA ∈ [sampleA, sampleB] ∧ sampleB ∈ [sampleA, sampleB] ∧
    colVal Col.liquidation_count sampleA ≤ colVal Col.liquidation_count sampleB ∧
    (scoreOne [sampleA, sampleB] sampleB).score ≤
      (scoreOne [sampleA, sampleB] sampleA).score :=
  ⟨by simp, by simp, by simp,
   by norm_num [colVal, sampleA, sampleB],
   C7_liquidation_monotone [sampleA, sampleB] sampleA sampleB (by simp)
     (by simp) (by simp)
     (by
       intro c hc
       cases c <;> first | rfl | exact absurd rfl hc)
     (by norm_num [colVal, sampleA, sampleB])⟩

theorem colMin_perm {l₁ l₂ : List FeatureRecord} (h : l₁.Perm l₂) (c : Col) :
    colMin l₁ c = colMin l₂ c :=
  listMin_perm (h.map (colVal c))

theorem colMax_perm {l₁ l₂ : List FeatureRecord} (h : l₁.Perm l₂) (c : Col) :
    colMax l₁ c = colMax l₂ c :=
  listMax_perm (h.map (colVal c))

theorem normalized_perm {l₁ l₂ : List FeatureRecord} (h : l₁.Perm l₂)
    (c : Col) (r : FeatureRecord) : normalized l₁ c r = normalized l₂ c r := by
  unfold normalized
  rw [colMin_perm h, colMax_perm h]

theorem rawScore_perm {l₁ l₂ : List FeatureRecord} (h : l₁.Perm l₂)
    (r : FeatureRecord) : rawScore l₁ r = rawScore l₂ r := by
  unfold rawScore
  congr 1
  apply List.map_congr_left
  intro c _
  rw [normalized_perm h]

theorem rawMin_perm {l₁ l₂ : List FeatureRecord} (h : l₁.Perm l₂) :
    rawMin l₁ = rawMin l₂ := by
  unfold rawMin
  rw [List.map_congr_left (fun r _ => rawScore_perm h r)]
  exact listMin_perm (h.map (rawScore l₂))

theorem rawMax_perm {l₁ l₂ : List FeatureRecord} (h : l₁.Perm l₂) :
    rawMax l₁ = rawMax l₂ := by
  unfold rawMax
  rw [List.map_congr_left (fun r _ => rawScore_perm h r)]
  exact listMax_perm (h.map (rawScore l₂))

theorem scoreOne_perm {l₁ l₂ : List FeatureRecord} (h : l₁.Perm l₂)
    (r : FeatureRecord) : scoreOne l₁ r = scoreOne l₂ r := by
  unfold scoreOne finalScoreQ
  rw [rawMin_perm h, rawMax_perm h, rawScore_perm h]

/-- C6: the scorer is a pure function of the record collection and is
permutation-invariant: scoring any reordering of a nonempty batch succeeds
and yields a permutation of the same output records — in particular the
same set of (wallet_id, score) pairs. -/
theorem C6_permutation_invariant (l₁ l₂ : List FeatureRecord)
    (hp : l₁.Perm l₂) (hl : l₁ ≠ []) :
    ∃ o₁ o₂, calculate_risk_score l₁ = Except.ok o₁ ∧
      calculate_risk_score l₂ = Except.ok o₂ ∧
      o₁.Perm o₂ ∧ ∀ p, p ∈ o₁ ↔ p ∈ o₂ := by
  have hl₂ : l₂ ≠ [] := by
    intro hn
    rw [hn] at hp
    exact hl hp.eq_nil
  have hperm : (l₁.map (scoreOne l₁)).Perm (l₂.map (scoreOne l₂)) := by
    rw [List.map_congr_left (fun r _ => scoreOne_perm hp r)]
    exact hp.map (scoreOne l₂)
  refine ⟨l₁.map (scoreOne l₁), l₂.map (scoreOne l₂), ?_, ?_, hperm,
    fun p => hperm.mem_iff⟩
  · cases l₁ with
    | nil => exact absurd rfl hl
    | cons x xs => exact calculate_risk_score_cons x xs
  · cases l₂ with
    | nil => exact absurd rfl hl₂
    | cons x xs => exact calculate_risk_score_cons x xs

/-- C6 witness: the batch `[sampleA, sampleB]` and its reversal both score
successfully, with outputs that are permutations of each other. -/
theorem C6_permutation_invariant_witness :
    ([sampleA, sampleB] : List FeatureRecord).Perm [sampleB, sampleA] ∧
    ∃ o₁ o₂, calculate_risk_score [sampleA, sampleB] = Except.ok o₁ ∧
      calculate_risk_score [sampleB, sampleA] = Except.ok o₂ ∧
      o₁.Perm o₂ ∧ ∀ p, p ∈ o₁ ↔ p ∈ o₂ :=
  ⟨List.Perm.swap sampleB sampleA [],
   C6_permutation_invariant [sampleA, sampleB] [sampleB, sampleA]
     (List.Perm.swap sampleB sampleA []) (by simp)⟩

/-- C9 counterexample: with the caller's DataFrame state made explicit,
scoring `{ rows := [sampleA], score_col := none }` leaves the frame in the
state `{ rows := [sampleA], score_col := some [500] }` — line 286 assigns
the `score` column to the input frame in place, so the input collection as
a whole is changed by the run. -/
theorem C9_mutation_counterexample :
    calculate_risk_score_df { rows := [sampleA], score_col := none } =
      Except.ok ({ rows := [sampleA], score_col := some [500] },
        [{ wallet_id := "w1", score := 500 }]) ∧
    ({ rows := [sampleA], score_col := some [500] } : FeaturesDF) ≠
      { rows := [sampleA], score_col := none } := by
  constructor
  · simp [calculate_risk_score_df, scoreOne, finalScoreQ, rawMax, rawMin,
      rawScore, normalized, normVal, colMin, colMax, listMin, listMax, clip,
      truncInt, weight, colVal, feature_columns, sampleA]
    norm_num [min_def]
  · intro h
    simpa using congrArg FeaturesDF.score_col h

/-- C9 amended: the scorer never alters any input FeatureRecord — the
frame's feature rows after the run equal the rows before it, and the
returned ScoreRecords are freshly built from them — but the run is not
free of in-place effects on the input collection: it sets the frame's
`score` column to the output scores. -/
theorem C9_rows_unchanged (df : FeaturesDF) (h : df.rows ≠ []) :
    ∃ df' out, calculate_risk_score_df df = Except.ok (df', out) ∧
      df'.rows = df.rows ∧
      out = df.rows.map (scoreOne df.rows) ∧
      df'.score_col = some (out.map ScoreRecord.score) := by
  rcases hr : df.rows with _ | ⟨x, xs⟩
  · exact absurd hr h
  · refine ⟨⟨x :: xs, some (((x :: xs).map (scoreOne (x :: xs))).map ScoreRecord.score)⟩,
      (x :: xs).map (scoreOne (x :: xs)), ?_, rfl, rfl, rfl⟩
    unfold calculate_risk_score_df
    rw [hr]

/-- C9 amended witness: on the concrete one-row frame the rows survive the
run unchanged while the `score` column is filled in. -/
theorem C9_rows_unchanged_witness :
    ({ rows := [sampleA], score_col := none } : FeaturesDF).rows ≠ [] ∧
    ∃ df' out,
      calculate_risk_score_df { rows := [sampleA], score_col := none } =
        Except.ok (df', out) ∧
      df'.rows = ({ rows := [sampleA], score_col := none } : FeaturesDF).rows ∧
      out = ({ rows := [sampleA], score_col := none } : FeaturesDF).rows.map
        (scoreOne ({ rows := [sampleA], score_col := none } : FeaturesDF).rows) ∧
      df'.score_col = some (out.map ScoreRecord.score) :=
  ⟨by simp, C9_rows_unchanged { rows := [sampleA], score_col := none } (by simp)⟩

end WalletScoring
